import Mathlib

/-!
Verification of the facilitator-agent backend (`app/src/models.py`,
`app/src/gemini_process.py`, `app/main.py`) against its specification.

The Python source is shallowly embedded: JSON schema dictionaries become an
inductive `Json` tree with association-list objects (Python `dict`s preserve
insertion order and have unique keys); pydantic models become Lean structures;
functions that can raise become `Option`/`Except`-valued; the generative-model
backend (`model.generate_content` + `model_validate_json`) is abstracted as an
attempt-indexed oracle `gen : Nat → Option T`; `time.sleep` is recorded as a
trace of slept durations rather than performed.
-/

/-- JSON values as manipulated by the schema post-processing helpers in
`app/src/models.py`.  Objects are association lists in insertion order,
mirroring Python `dict` semantics. -/
inductive Json where
  | null
  | bool (b : Bool)
  | num (n : Int)
  | str (s : String)
  | arr (items : List Json)
  | obj (fields : List (String × Json))

/-- Python `d[key]` / `key in d` membership probe on an ordered dict. -/
def lookupKey (key : String) : List (String × Json) → Option Json
  | [] => none
  | (k, v) :: tl => if k = key then some v else lookupKey key tl

/-- Python `d.pop(key)`'s effect on the dict: drop the entry with that key
(keys are unique in a Python dict, so dropping every match is the same). -/
def eraseKey (key : String) : List (String × Json) → List (String × Json)
  | [] => []
  | (k, v) :: tl => if k = key then eraseKey key tl else (k, v) :: eraseKey key tl

/-- Python `d[key] = val`: overwrite in place when the key exists (keeping its
position), otherwise append at the end. -/
def setKey (key : String) (val : Json) : List (String × Json) → List (String × Json)
  | [] => [(key, val)]
  | (k, v) :: tl => if k = key then (k, val) :: tl else (k, v) :: setKey key val tl

/-- Python `d.update(other)`: assign each of `other`'s entries in order. -/
def dictUpdate (fs : List (String × Json)) : List (String × Json) → List (String × Json)
  | [] => fs
  | (k, v) :: tl => dictUpdate (setKey k v fs) tl

theorem sizeOf_eraseKey_le (key : String) : ∀ fs : List (String × Json),
    sizeOf (eraseKey key fs) ≤ sizeOf fs
  | [] => le_refl _
  | (k, v) :: tl => by
      by_cases h : k = key <;>
        simp [eraseKey, h] <;> have := sizeOf_eraseKey_le key tl <;> omega

theorem sizeOf_setKey_le (key : String) (val : Json) : ∀ fs : List (String × Json),
    sizeOf (setKey key val fs) ≤ sizeOf fs + sizeOf key + sizeOf val + 2
  | [] => by simp [setKey] <;> omega
  | (k, v) :: tl => by
      by_cases h : k = key <;> simp [setKey, h] <;>
        have := sizeOf_setKey_le key val tl <;> omega

theorem sizeOf_dictUpdate_le : ∀ (g fs : List (String × Json)),
    sizeOf (dictUpdate fs g) ≤ sizeOf fs + sizeOf g
  | [], fs => by simp [dictUpdate] <;> omega
  | (k, v) :: tl, fs => by
      simp only [dictUpdate]
      have h1 := sizeOf_dictUpdate_le tl (setKey k v fs)
      have h2 := sizeOf_setKey_le k v fs
      simp at *
      omega

theorem sizeOf_lookupKey (key : String) : ∀ (fs : List (String × Json)) (v : Json),
    lookupKey key fs = some v → sizeOf v + sizeOf (eraseKey key fs) < sizeOf fs
  | [], v => by simp [lookupKey]
  | (k, w) :: tl, v => by
      by_cases h : k = key
      · simp [lookupKey, eraseKey, h]
        intro hv
        have := sizeOf_eraseKey_le key tl
        subst hv
        omega
      · simp [lookupKey, eraseKey, h]
        intro hv
        have := sizeOf_lookupKey key tl v hv
        omega

mutual

/-- `models._remove_key_recursive(d, key_to_remove)`: rebuild the tree with
every entry carrying the given key dropped, recursing into dict values and
list items; leaves are returned unchanged. -/
def remove_key_recursive (key : String) : Json → Json
  | .obj fs => .obj (remove_key_recursive_fields key fs)
  | .arr xs => .arr (remove_key_recursive_list key xs)
  | v => v

/-- The dict-comprehension inside `_remove_key_recursive`. -/
def remove_key_recursive_fields (key : String) :
    List (String × Json) → List (String × Json)
  | [] => []
  | (k, v) :: tl =>
      if k = key then remove_key_recursive_fields key tl
      else (k, remove_key_recursive key v) :: remove_key_recursive_fields key tl

/-- The list-comprehension inside `_remove_key_recursive`. -/
def remove_key_recursive_list (key : String) : List Json → List Json
  | [] => []
  | v :: tl => remove_key_recursive key v :: remove_key_recursive_list key tl

end

mutual

/-- Is the given string present as a dict key anywhere in the tree? -/
def containsKey (key : String) : Json → Bool
  | .obj fs => containsKeyFields key fs
  | .arr xs => containsKeyList key xs
  | _ => false

def containsKeyFields (key : String) : List (String × Json) → Bool
  | [] => false
  | (k, v) :: tl => (k = key) || containsKey key v || containsKeyFields key tl

def containsKeyList (key : String) : List Json → Bool
  | [] => false
  | v :: tl => containsKey key v || containsKeyList key tl

end

mutual

/-- `models._remove_allOf(schema)`: on a dict, when `allOf` is present with a
single-element list, pop it and `update` the dict with that element, then
recurse into every value of the (possibly merged) dict; on a list, recurse
into every item.  A non-list `allOf` value, or a single element that is not a
dict, makes the Python code raise (`len`/`update` failure) — modelled as
`none`. -/
def remove_allOf : Json → Option Json
  | .obj fs =>
      match h : lookupKey "allOf" fs with
      | some (.arr [.obj g]) =>
          (remove_allOf_fields (dictUpdate (eraseKey "allOf" fs) g)).map .obj
      | some (.arr [_]) => none
      | some (.arr (_ :: _ :: _)) => (remove_allOf_fields fs).map .obj
      | some (.arr []) => (remove_allOf_fields fs).map .obj
      | some _ => none
      | none => (remove_allOf_fields fs).map .obj
  | .arr xs => (remove_allOf_list xs).map .arr
  | v => some v
termination_by v => sizeOf v
decreasing_by
  · have h1 := sizeOf_lookupKey "allOf" fs _ h
    have h2 := sizeOf_dictUpdate_le g (eraseKey "allOf" fs)
    simp at h1 ⊢
    omega
  · simp <;> omega
  · simp <;> omega
  · simp <;> omega
  · simp <;> omega

def remove_allOf_fields : List (String × Json) → Option (List (String × Json))
  | [] => some []
  | (k, v) :: tl => do
      let v' ← remove_allOf v
      let tl' ← remove_allOf_fields tl
      pure ((k, v') :: tl')
termination_by fs => sizeOf fs
decreasing_by
  · simp <;> omega
  · simp <;> omega

def remove_allOf_list : List Json → Option (List Json)
  | [] => some []
  | v :: tl => do
      let v' ← remove_allOf v
      let tl' ← remove_allOf_list tl
      pure (v' :: tl')
termination_by xs => sizeOf xs
decreasing_by
  · simp <;> omega
  · simp <;> omega

end

mutual

/-- `models._remove_anyOf(schema)`: on a dict, when `anyOf` is present, pop it
and `update` the dict with the first listed alternative, then recurse into
every value of the (possibly merged) dict — the merged-in entries themselves
are not re-examined at this level; on a list, recurse into every item.  An
empty or non-list `anyOf` value, or a first alternative that is not a dict,
makes the Python code raise (indexing/`update` failure) — modelled as `none`. -/
def remove_anyOf : Json → Option Json
  | .obj fs =>
      match h : lookupKey "anyOf" fs with
      | some (.arr (.obj g :: _)) =>
          (remove_anyOf_fields (dictUpdate (eraseKey "anyOf" fs) g)).map .obj
      | some _ => none
      | none => (remove_anyOf_fields fs).map .obj
  | .arr xs => (remove_anyOf_list xs).map .arr
  | v => some v
termination_by v => sizeOf v
decreasing_by
  · have h1 := sizeOf_lookupKey "anyOf" fs _ h
    have h2 := sizeOf_dictUpdate_le g (eraseKey "anyOf" fs)
    simp at h1 ⊢
    omega
  · simp <;> omega
  · simp <;> omega

def remove_anyOf_fields : List (String × Json) → Option (List (String × Json))
  | [] => some []
  | (k, v) :: tl => do
      let v' ← remove_anyOf v
      let tl' ← remove_anyOf_fields tl
      pure ((k, v') :: tl')
termination_by fs => sizeOf fs
decreasing_by
  · simp <;> omega
  · simp <;> omega

def remove_anyOf_list : List Json → Option (List Json)
  | [] => some []
  | v :: tl => do
      let v' ← remove_anyOf v
      let tl' ← remove_anyOf_list tl
      pure (v' :: tl')
termination_by xs => sizeOf xs
decreasing_by
  · simp <;> omega
  · simp <;> omega

end

mutual

/-- `models._remove_pattern_properties(schema)`: on a dict, pop `pattern` when
present, then recurse into every value; on a list, recurse into every item.
(`eraseKey` on an absent key is the identity, so it is applied
unconditionally.) -/
def remove_pattern_properties : Json → Json
  | .obj fs => .obj (remove_pattern_properties_fields (eraseKey "pattern" fs))
  | .arr xs => .arr (remove_pattern_properties_list xs)
  | v => v
termination_by v => sizeOf v
decreasing_by
  · have := sizeOf_eraseKey_le "pattern" fs
    simp at this ⊢
    omega
  · simp <;> omega

def remove_pattern_properties_fields :
    List (String × Json) → List (String × Json)
  | [] => []
  | (k, v) :: tl =>
      (k, remove_pattern_properties v) :: remove_pattern_properties_fields tl
termination_by fs => sizeOf fs
decreasing_by
  · simp <;> omega
  · simp <;> omega

def remove_pattern_properties_list : List Json → List Json
  | [] => []
  | v :: tl => remove_pattern_properties v :: remove_pattern_properties_list tl
termination_by xs => sizeOf xs
decreasing_by
  · simp <;> omega
  · simp <;> omega

end

/-- `models.parse_json_schema(schema)`: resolve references, drop every `title`
key, collapse single-element `allOf`, collapse `anyOf` to its first listed
alternative, drop `pattern` constraints, and drop the top-level `$defs`
container.  `jsonref.JsonRef.replace_refs` is an external library call and is
modelled as the identity, i.e. the embedding covers schemas already free of
`$ref` indirection.  The final dict comprehension requires the top level to be
a dict (`.items()` would raise otherwise). -/
def parse_json_schema (schema : Json) : Option Json := do
  let s1 := remove_key_recursive "title" schema
  let s2 ← remove_allOf s1
  let s3 ← remove_anyOf s2
  let s4 := remove_pattern_properties s3
  match s4 with
  | .obj fs => pure (.obj (eraseKey "$defs" fs))
  | _ => none

/-- `models.MeetingStatus`: the three-valued meeting status enum. -/
inductive MeetingStatus where
  | NOT_STARTED
  | IN_PROGRESS
  | COMPLETED
deriving DecidableEq

/-- `models.AgendaGoalModel`: one goal of an agenda item. -/
structure AgendaGoalModel where
  done : Bool
  condition : String
  result : Option String
deriving DecidableEq

/-- `models.AgendaItemModel`: one agenda item. -/
structure AgendaItemModel where
  agenda : String
  minutes : Option String
  status : MeetingStatus
  goals : List AgendaGoalModel
deriving DecidableEq

/-- `models.AgendaItemModel.resolve_status`: set `status` from the goals —
`COMPLETED` when `all(goal.done for goal in self.goals)`, else `IN_PROGRESS`
when `any(...)`, else `NOT_STARTED`; all other fields are left in place. -/
def AgendaItemModel.resolve_status (self : AgendaItemModel) : AgendaItemModel :=
  if self.goals.all (fun goal => goal.done) then
    { self with status := MeetingStatus.COMPLETED }
  else if self.goals.any (fun goal => goal.done) then
    { self with status := MeetingStatus.IN_PROGRESS }
  else
    { self with status := MeetingStatus.NOT_STARTED }

/-- `models.AgendaModel`: the agenda items plus the optional hand-over note. -/
structure AgendaModel where
  items : List AgendaItemModel
  hand_over : Option String
deriving DecidableEq

/-- `models.AgendaModel.resolve_status`: returns
`AgendaModel(items=[item.resolve_status() for item in self.items])` — the
constructor is called with only `items`, so `hand_over` takes its declared
default `None`. -/
def AgendaModel.resolve_status (self : AgendaModel) : AgendaModel :=
  { items := self.items.map (fun item => item.resolve_status), hand_over := none }

/-- `models.CommentsModel`: one transcribed utterance. -/
structure CommentsModel where
  start_sec : Float
  end_sec : Float
  speaker_id : String
  text : String

/-- `models.CommentsModel.clean_text`: rebuilds the comment with
`text.replace(" ", "")`, i.e. every occurrence of the one-character space
pattern deleted — as a character-sequence operation, the spaces filtered out;
the other three fields are copied. -/
def CommentsModel.clean_text (self : CommentsModel) : CommentsModel :=
  { start_sec := self.start_sec, end_sec := self.end_sec,
    speaker_id := self.speaker_id,
    text := String.mk (self.text.data.filter (fun c => c != ' ')) }

/-- `models.TranscriptionModel`: the ordered comments of one interval. -/
structure TranscriptionModel where
  comments : List CommentsModel

/-- `models.TranscriptionModel.clean_text`: rebuilds the transcription from
`[comment.clean_text() for comment in self.comments]`. -/
def TranscriptionModel.clean_text (self : TranscriptionModel) : TranscriptionModel :=
  { comments := self.comments.map (fun comment => comment.clean_text) }

/-- `models.HandOverModel`: the synthesized hand-over note. -/
structure HandOverModel where
  hand_over : String
deriving DecidableEq

namespace GeminiConfig

/-- `gemini_process.GeminiConfig.MAX_RETRIES`. -/
def MAX_RETRIES : Nat := 5

end GeminiConfig

/-- `gemini_process.exponential_backoff(retries)` sleeps `2**retries` seconds;
the embedding records the duration instead of sleeping. -/
def exponential_backoff (retries : Nat) : Nat := 2 ^ retries

/-- Observable behaviour of one `_validate` call tree: the value it returns
(`none` = the exception it re-raises), how many generation attempts it made,
and the backoff durations slept between attempts, in order. -/
structure ValidateTrace (T : Type) where
  result : Option T
  attempts : Nat
  sleeps : List Nat

/-- `gemini_process._validate(model, parts, schema_cls, retries, max_retries)`:
one generation attempt (`model.generate_content` followed by
`schema_cls.model_validate_json`, abstracted as the attempt-indexed oracle
`gen`); on success return the parsed response, on any failure sleep
`exponential_backoff(retries)` and recurse with `retries + 1` while
`retries < max_retries`, else re-raise. -/
def _validate {T : Type} (gen : Nat → Option T) (retries : Nat)
    (max_retries : Nat) : ValidateTrace T :=
  match gen retries with
  | some parsed_response => { result := some parsed_response, attempts := 1, sleeps := [] }
  | none =>
      if retries < max_retries then
        let rest := _validate gen (retries + 1) max_retries
        { result := rest.result, attempts := rest.attempts + 1,
          sleeps := exponential_backoff retries :: rest.sleeps }
      else { result := none, attempts := 1, sleeps := [] }
termination_by max_retries - retries
decreasing_by omega

/-- `gemini_process.process_agenda(transcription, agenda)`: builds the prompt
from its arguments and returns `_validate(model, parts, AgendaModel, 0,
GeminiConfig.MAX_RETRIES)` — the validated model response is forwarded as-is;
no field of the response is compared against the input. -/
def process_agenda (gen : Nat → Option AgendaModel)
    (transcription : TranscriptionModel) (agenda : AgendaModel) :
    Option AgendaModel :=
  (_validate gen 0 GeminiConfig.MAX_RETRIES).result

/-- `gemini_process.process_agenda_by_item(transcription, agenda)`: builds the
single-item prompt and returns `_validate(model, parts, AgendaItemModel, 0,
GeminiConfig.MAX_RETRIES)` — the validated model response is forwarded as-is;
no field of the response is compared against the input item. -/
def process_agenda_by_item (gen : Nat → Option AgendaItemModel)
    (transcription : TranscriptionModel) (agenda : AgendaItemModel) :
    Option AgendaItemModel :=
  (_validate gen 0 GeminiConfig.MAX_RETRIES).result

/-- `gemini_process.process_hand_over(transcription, previous_agenda,
post_agenda)`: returns `_validate(model, parts, HandOverModel, 0,
GeminiConfig.MAX_RETRIES)`. -/
def process_hand_over (gen : Nat → Option HandOverModel)
    (transcription : TranscriptionModel)
    (previous_agenda post_agenda : AgendaModel) : Option HandOverModel :=
  (_validate gen 0 GeminiConfig.MAX_RETRIES).result

/-- Result collection of `asyncio.gather(*tasks)`: results are delivered in
task-creation order; if any task raised, the exception propagates to the
caller (`none`). -/
def gather {α : Type} : List (Option α) → Option (List α)
  | [] => some []
  | t :: tl => do
      let y ← t
      let ys ← gather tl
      pure (y :: ys)

/-- The `/agenda` handler's try-block in `app/main.py`: fan out
`process_agenda_by_item` over `agenda.items`, `asyncio.gather` the results,
wrap them in `AgendaModel(items=items).resolve_status()`, synthesize the
hand-over note, attach it, and return; any exception escapes as an
HTTP 500 (`none`) — no agenda value is returned then. -/
def agenda_endpoint (gen_by_item : AgendaItemModel → Nat → Option AgendaItemModel)
    (gen_hand_over : Nat → Option HandOverModel)
    (transcription : TranscriptionModel) (agenda : AgendaModel) :
    Option AgendaModel := do
  let tasks := agenda.items.map
    (fun item => process_agenda_by_item (gen_by_item item) transcription item)
  let items ← gather tasks
  let new_agenda := (AgendaModel.mk items none).resolve_status
  let ho ← process_hand_over gen_hand_over transcription agenda new_agenda
  pure { new_agenda with hand_over := some ho.hand_over }

/-- Index lookup in a completion log (first match wins, as each index is
logged once). -/
def lookupIdx {α : Type} (i : Nat) : List (Nat × α) → Option α
  | [] => none
  | (j, a) :: tl => if j = i then some a else lookupIdx i tl

/-- Read results back out of a completion log in the listed index order. -/
def collectInOrder {α : Type} (log : List (Nat × α)) : List Nat → Option (List α)
  | [] => some []
  | i :: tl => do
      let y ← lookupIdx i log
      let ys ← collectInOrder log tl
      pure (y :: ys)

/-- Completion-order model of the `asyncio.gather` fan-out in the `/agenda`
handler: tasks `0 .. n-1` finish in an arbitrary order `completion_order`,
each completion appending `(task index, task result)` to a log; the gathered
result list is then read back in task-creation order `0 .. n-1`. -/
def gather_by_completion {α : Type} (run : Nat → α) (n : Nat)
    (completion_order : List Nat) : Option (List α) :=
  collectInOrder (completion_order.map (fun i => (i, run i))) (List.range n)

mutual

theorem containsKey_remove_key_recursive (key : String) : ∀ v : Json,
    containsKey key (remove_key_recursive key v) = false
  | .obj fs => by
      simp [remove_key_recursive, containsKey,
        containsKeyFields_remove_key_recursive_fields key fs]
  | .arr xs => by
      simp [remove_key_recursive, containsKey,
        containsKeyList_remove_key_recursive_list key xs]
  | .null => rfl
  | .bool _ => rfl
  | .num _ => rfl
  | .str _ => rfl

theorem containsKeyFields_remove_key_recursive_fields (key : String) :
    ∀ fs : List (String × Json),
    containsKeyFields key (remove_key_recursive_fields key fs) = false
  | [] => rfl
  | (k, v) :: tl => by
      by_cases h : k = key
      · simp [remove_key_recursive_fields, h,
          containsKeyFields_remove_key_recursive_fields key tl]
      · simp [remove_key_recursive_fields, h, containsKeyFields,
          containsKey_remove_key_recursive key v,
          containsKeyFields_remove_key_recursive_fields key tl]

theorem containsKeyList_remove_key_recursive_list (key : String) :
    ∀ xs : List Json,
    containsKeyList key (remove_key_recursive_list key xs) = false
  | [] => rfl
  | v :: tl => by
      simp [remove_key_recursive_list, containsKeyList,
        containsKey_remove_key_recursive key v,
        containsKeyList_remove_key_recursive_list key tl]

end

theorem containsKeyFields_eraseKey (key k : String) :
    ∀ fs : List (String × Json), containsKeyFields key fs = false →
    containsKeyFields key (eraseKey k fs) = false
  | [] => fun _ => rfl
  | (k', v) :: tl => by
      intro h
      simp [containsKeyFields] at h
      obtain ⟨⟨h1, h2⟩, h3⟩ := h
      by_cases hk : k' = k <;>
        simp [eraseKey, hk, containsKeyFields, h1, h2,
          containsKeyFields_eraseKey key k tl h3]

theorem containsKeyFields_setKey (key k : String) (v : Json) :
    ∀ fs : List (String × Json), containsKeyFields key fs = false →
    k ≠ key → containsKey key v = false →
    containsKeyFields key (setKey k v fs) = false
  | [] => by
      intro _ hk hv
      simp [setKey, containsKeyFields, hk, hv]
  | (k', w) :: tl => by
      intro h hk hv
      simp [containsKeyFields] at h
      obtain ⟨⟨h1, h2⟩, h3⟩ := h
      by_cases hk' : k' = k <;>
        simp [setKey, hk', containsKeyFields, h1, h2, h3, hk, hv,
          containsKeyFields_setKey key k v tl h3 hk hv]

theorem containsKeyFields_dictUpdate (key : String) :
    ∀ (g fs : List (String × Json)), containsKeyFields key fs = false →
    containsKeyFields key g = false →
    containsKeyFields key (dictUpdate fs g) = false
  | [] => fun fs h _ => h
  | (k, v) :: tl => by
      intro fs hf hg
      simp [containsKeyFields] at hg
      obtain ⟨⟨hg1, hg2⟩, hg3⟩ := hg
      exact containsKeyFields_dictUpdate key tl (setKey k v fs)
        (containsKeyFields_setKey key k v fs hf hg1 hg2) hg3

theorem containsKey_lookupKey (key k : String) :
    ∀ (fs : List (String × Json)) (v : Json), lookupKey k fs = some v →
    containsKeyFields key fs = false → containsKey key v = false
  | [] => by intro v h; simp [lookupKey] at h
  | (k', w) :: tl => by
      intro v h hf
      simp [containsKeyFields] at hf
      obtain ⟨⟨hf1, hf2⟩, hf3⟩ := hf
      by_cases hk : k' = k
      · simp [lookupKey, hk] at h
        subst h
        exact hf2
      · simp [lookupKey, hk] at h
        exact containsKey_lookupKey key k tl v h hf3

theorem not_pattern_key_eraseKey (key : String) :
    ∀ (fs : List (String × Json)) (p : String × Json),
    p ∈ eraseKey key fs → p.1 ≠ key
  | [] => by intro p h; simp [eraseKey] at h
  | (k, v) :: tl => by
      intro p h
      by_cases hk : k = key
      · exact not_pattern_key_eraseKey key tl p (by simpa [eraseKey, hk] using h)
      · rcases List.mem_cons.mp (by simpa [eraseKey, hk] using h) with h' | h'
        · subst h'; exact hk
        · exact not_pattern_key_eraseKey key tl p h'

theorem validate_always_fails {T : Type} (gen : Nat → Option T)
    (hg : ∀ k, gen k = none) : ∀ (retries max_retries : Nat),
    (_validate gen retries max_retries).result = none ∧
    (_validate gen retries max_retries).attempts = max_retries - retries + 1 ∧
    (_validate gen retries max_retries).sleeps =
      (List.range' retries (max_retries - retries)).map (fun k => 2 ^ k)
  | retries, max_retries => by
      by_cases h : retries < max_retries
      · have IH := validate_always_fails gen hg (retries + 1) max_retries
        have harith : max_retries - retries = (max_retries - (retries + 1)) + 1 := by
          omega
        rw [_validate.eq_def, hg retries]
        simp only [if_pos h, exponential_backoff]
        rw [harith, List.range'_succ]
        simp [IH.1, IH.2.1, IH.2.2]
      · have h0 : max_retries - retries = 0 := by omega
        rw [_validate.eq_def, hg retries]
        simp [h, h0]
termination_by retries max_retries => max_retries - retries
decreasing_by omega

theorem validate_result_some {T : Type} (gen : Nat → Option T) :
    ∀ (retries max_retries : Nat) (t : T),
    (_validate gen retries max_retries).result = some t → ∃ k, gen k = some t
  | retries, max_retries, t => by
      intro h
      rcases hgen : gen retries with _ | u
      · rw [_validate.eq_def, hgen] at h
        by_cases hlt : retries < max_retries
        · simp only [if_pos hlt] at h
          exact validate_result_some gen (retries + 1) max_retries t h
        · simp [hlt] at h
      · rw [_validate.eq_def, hgen] at h
        simp at h
        exact ⟨retries, by rw [hgen, h]⟩
termination_by retries max_retries _ => max_retries - retries
decreasing_by omega

theorem gather_none {α : Type} : ∀ tasks : List (Option α),
    none ∈ tasks → gather tasks = none
  | [] => by intro h; simp at h
  | t :: tl => by
      intro hmem
      rcases List.mem_cons.mp hmem with h | h
      · rw [← h]; simp [gather]
      · cases t with
        | none => simp [gather]
        | some y => simp [gather, gather_none tl h]

theorem lookupIdx_log {α : Type} (run : Nat → α) (i : Nat) :
    ∀ order : List Nat, i ∈ order →
    lookupIdx i (order.map (fun j => (j, run j))) = some (run i)
  | [] => by intro h; simp at h
  | j :: tl => by
      intro hmem
      by_cases h : j = i
      · subst h; simp [lookupIdx]
      · rcases List.mem_cons.mp hmem with h' | h'
        · exact absurd h'.symm h
        · simp [lookupIdx, h, lookupIdx_log run i tl h']

theorem collectInOrder_some {α : Type} (log : List (Nat × α)) (run : Nat → α) :
    ∀ idxs : List Nat, (∀ i ∈ idxs, lookupIdx i log = some (run i)) →
    collectInOrder log idxs = some (idxs.map run)
  | [] => by intro _; simp [collectInOrder]
  | i :: tl => by
      intro h
      simp [collectInOrder, h i (by simp),
        collectInOrder_some log run tl (fun j hj => h j (by simp [hj]))]

theorem map_getD_range {α β : Type} (f : α → β) (d : α) :
    ∀ l : List α, (List.range l.length).map (fun i => f (l.getD i d)) = l.map f
  | [] => rfl
  | a :: tl => by
      rw [List.length_cons, List.range_succ_eq_map]
      simp only [List.map_cons, List.map_map]
      congr 1
      have hcomp : ((fun i => f ((a :: tl).getD i d)) ∘ Nat.succ) =
          fun i => f (tl.getD i d) :=
        funext fun i => congrArg f List.getD_cons_succ
      rw [hcomp, map_getD_range f d tl]

theorem comment_clean_text_idem (c : CommentsModel) :
    c.clean_text.clean_text = c.clean_text := by
  simp [CommentsModel.clean_text, List.filter_filter]

mutual

theorem remove_allOf_no_key (key : String) : ∀ (v v' : Json),
    containsKey key v = false → remove_allOf v = some v' →
    containsKey key v' = false
  | .obj fs, v' => by
      intro hv heq
      have hfs : containsKeyFields key fs = false := by simpa [containsKey] using hv
      simp only [remove_allOf] at heq
      split at heq
      · next g hlk =>
          have hsize : sizeOf (dictUpdate (eraseKey "allOf" fs) g) < sizeOf (Json.obj fs) := by
            have h1 := sizeOf_lookupKey "allOf" fs _ hlk
            have h2 := sizeOf_dictUpdate_le g (eraseKey "allOf" fs)
            simp at h1 ⊢
            omega
          rcases Option.map_eq_some'.mp heq with ⟨gs, hgs, rfl⟩
          have harr := containsKey_lookupKey key "allOf" fs _ hlk hfs
          have hg : containsKeyFields key g = false := by
            simpa [containsKey, containsKeyList] using harr
          have hX : containsKeyFields key (dictUpdate (eraseKey "allOf" fs) g) = false :=
            containsKeyFields_dictUpdate key g (eraseKey "allOf" fs)
              (containsKeyFields_eraseKey key "allOf" fs hfs) hg
          simpa [containsKey] using
            remove_allOf_fields_no_key key (dictUpdate (eraseKey "allOf" fs) g) gs hX hgs
      · simp at heq
      · next hlk =>
          rcases Option.map_eq_some'.mp heq with ⟨gs, hgs, rfl⟩
          simpa [containsKey] using remove_allOf_fields_no_key key fs gs hfs hgs
      · next hlk =>
          rcases Option.map_eq_some'.mp heq with ⟨gs, hgs, rfl⟩
          simpa [containsKey] using remove_allOf_fields_no_key key fs gs hfs hgs
      · simp at heq
      · next hlk =>
          rcases Option.map_eq_some'.mp heq with ⟨gs, hgs, rfl⟩
          simpa [containsKey] using remove_allOf_fields_no_key key fs gs hfs hgs
  | .arr xs, v' => by
      intro hv heq
      have hxs : containsKeyList key xs = false := by simpa [containsKey] using hv
      simp only [remove_allOf] at heq
      rcases Option.map_eq_some'.mp heq with ⟨ys, hys, rfl⟩
      simpa [containsKey] using remove_allOf_list_no_key key xs ys hxs hys
  | .null, v' => by
      intro hv heq
      simp [remove_allOf] at heq
      subst heq
      exact hv
  | .bool b, v' => by
      intro hv heq
      simp [remove_allOf] at heq
      subst heq
      exact hv
  | .num n, v' => by
      intro hv heq
      simp [remove_allOf] at heq
      subst heq
      exact hv
  | .str s, v' => by
      intro hv heq
      simp [remove_allOf] at heq
      subst heq
      exact hv
termination_by v _ => sizeOf v
decreasing_by
  · simp at hsize ⊢ <;> omega
  · simp <;> omega
  · simp <;> omega
  · simp <;> omega
  · simp <;> omega

theorem remove_allOf_fields_no_key (key : String) :
    ∀ (fs fs' : List (String × Json)),
    containsKeyFields key fs = false → remove_allOf_fields fs = some fs' →
    containsKeyFields key fs' = false
  | [], fs' => by
      intro _ heq
      simp [remove_allOf_fields] at heq
      subst heq
      rfl
  | (k, v) :: tl, fs' => by
      intro h heq
      simp [containsKeyFields] at h
      obtain ⟨⟨h1, h2⟩, h3⟩ := h
      simp only [remove_allOf_fields] at heq
      rcases hv : remove_allOf v with _ | v1 <;> rw [hv] at heq
      · simp at heq
      · rcases htl : remove_allOf_fields tl with _ | tl1 <;> rw [htl] at heq
        · simp at heq
        · simp at heq
          subst heq
          simp [containsKeyFields, h1,
            remove_allOf_no_key key v v1 h2 hv,
            remove_allOf_fields_no_key key tl tl1 h3 htl]
termination_by fs _ => sizeOf fs
decreasing_by
  · simp <;> omega
  · simp <;> omega

theorem remove_allOf_list_no_key (key : String) : ∀ (xs xs' : List Json),
    containsKeyList key xs = false → remove_allOf_list xs = some xs' →
    containsKeyList key xs' = false
  | [], xs' => by
      intro _ heq
      simp [remove_allOf_list] at heq
      subst heq
      rfl
  | v :: tl, xs' => by
      intro h heq
      simp [containsKeyList] at h
      obtain ⟨h1, h2⟩ := h
      simp only [remove_allOf_list] at heq
      rcases hv : remove_allOf v with _ | v1 <;> rw [hv] at heq
      · simp at heq
      · rcases htl : remove_allOf_list tl with _ | tl1 <;> rw [htl] at heq
        · simp at heq
        · simp at heq
          subst heq
          simp [containsKeyList,
            remove_allOf_no_key key v v1 h1 hv,
            remove_allOf_list_no_key key tl tl1 h2 htl]
termination_by xs _ => sizeOf xs
decreasing_by
  · simp <;> omega
  · simp <;> omega

end

mutual

theorem remove_anyOf_no_key (key : String) : ∀ (v v' : Json),
    containsKey key v = false → remove_anyOf v = some v' →
    containsKey key v' = false
  | .obj fs, v' => by
      intro hv heq
      have hfs : containsKeyFields key fs = false := by simpa [containsKey] using hv
      simp only [remove_anyOf] at heq
      split at heq
      · next g rest hlk =>
          have hsize : sizeOf (dictUpdate (eraseKey "anyOf" fs) g) < sizeOf (Json.obj fs) := by
            have h1 := sizeOf_lookupKey "anyOf" fs _ hlk
            have h2 := sizeOf_dictUpdate_le g (eraseKey "anyOf" fs)
            simp at h1 ⊢
            omega
          rcases Option.map_eq_some'.mp heq with ⟨gs, hgs, rfl⟩
          have harr := containsKey_lookupKey key "anyOf" fs _ hlk hfs
          have hg : containsKeyFields key g = false := by
            simp [containsKey, containsKeyList] at harr
            exact harr.1
          have hX : containsKeyFields key (dictUpdate (eraseKey "anyOf" fs) g) = false :=
            containsKeyFields_dictUpdate key g (eraseKey "anyOf" fs)
              (containsKeyFields_eraseKey key "anyOf" fs hfs) hg
          simpa [containsKey] using
            remove_anyOf_fields_no_key key (dictUpdate (eraseKey "anyOf" fs) g) gs hX hgs
      · simp at heq
      · next hlk =>
          rcases Option.map_eq_some'.mp heq with ⟨gs, hgs, rfl⟩
          simpa [containsKey] using remove_anyOf_fields_no_key key fs gs hfs hgs
  | .arr xs, v' => by
      intro hv heq
      have hxs : containsKeyList key xs = false := by simpa [containsKey] using hv
      simp only [remove_anyOf] at heq
      rcases Option.map_eq_some'.mp heq with ⟨ys, hys, rfl⟩
      simpa [containsKey] using remove_anyOf_list_no_key key xs ys hxs hys
  | .null, v' => by
      intro hv heq
      simp [remove_anyOf] at heq
      subst heq
      exact hv
  | .bool b, v' => by
      intro hv heq
      simp [remove_anyOf] at heq
      subst heq
      exact hv
  | .num n, v' => by
      intro hv heq
      simp [remove_anyOf] at heq
      subst heq
      exact hv
  | .str s, v' => by
      intro hv heq
      simp [remove_anyOf] at heq
      subst heq
      exact hv
termination_by v _ => sizeOf v
decreasing_by
  · simp at hsize ⊢ <;> omega
  · simp <;> omega
  · simp <;> omega

theorem remove_anyOf_fields_no_key (key : String) :
    ∀ (fs fs' : List (String × Json)),
    containsKeyFields key fs = false → remove_anyOf_fields fs = some fs' →
    containsKeyFields key fs' = false
  | [], fs' => by
      intro _ heq
      simp [remove_anyOf_fields] at heq
      subst heq
      rfl
  | (k, v) :: tl, fs' => by
      intro h heq
      simp [containsKeyFields] at h
      obtain ⟨⟨h1, h2⟩, h3⟩ := h
      simp only [remove_anyOf_fields] at heq
      rcases hv : remove_anyOf v with _ | v1 <;> rw [hv] at heq
      · simp at heq
      · rcases htl : remove_anyOf_fields tl with _ | tl1 <;> rw [htl] at heq
        · simp at heq
        · simp at heq
          subst heq
          simp [containsKeyFields, h1,
            remove_anyOf_no_key key v v1 h2 hv,
            remove_anyOf_fields_no_key key tl tl1 h3 htl]
termination_by fs _ => sizeOf fs
decreasing_by
  · simp <;> omega
  · simp <;> omega

theorem remove_anyOf_list_no_key (key : String) : ∀ (xs xs' : List Json),
    containsKeyList key xs = false → remove_anyOf_list xs = some xs' →
    containsKeyList key xs' = false
  | [], xs' => by
      intro _ heq
      simp [remove_anyOf_list] at heq
      subst heq
      rfl
  | v :: tl, xs' => by
      intro h heq
      simp [containsKeyList] at h
      obtain ⟨h1, h2⟩ := h
      simp only [remove_anyOf_list] at heq
      rcases hv : remove_anyOf v with _ | v1 <;> rw [hv] at heq
      · simp at heq
      · rcases htl : remove_anyOf_list tl with _ | tl1 <;> rw [htl] at heq
        · simp at heq
        · simp at heq
          subst heq
          simp [containsKeyList,
            remove_anyOf_no_key key v v1 h1 hv,
            remove_anyOf_list_no_key key tl tl1 h2 htl]
termination_by xs _ => sizeOf xs
decreasing_by
  · simp <;> omega
  · simp <;> omega

end

mutual

theorem remove_pattern_no_key (key : String) : ∀ v : Json,
    containsKey key v = false →
    containsKey key (remove_pattern_properties v) = false
  | .obj fs => by
      intro hv
      have hfs : containsKeyFields key fs = false := by simpa [containsKey] using hv
      simp only [remove_pattern_properties, containsKey]
      exact remove_pattern_fields_no_key key (eraseKey "pattern" fs)
        (containsKeyFields_eraseKey key "pattern" fs hfs)
  | .arr xs => by
      intro hv
      have hxs : containsKeyList key xs = false := by simpa [containsKey] using hv
      simp only [remove_pattern_properties, containsKey]
      exact remove_pattern_list_no_key key xs hxs
  | .null => by intro hv; simpa [remove_pattern_properties] using hv
  | .bool b => by intro hv; simpa [remove_pattern_properties] using hv
  | .num n => by intro hv; simpa [remove_pattern_properties] using hv
  | .str s => by intro hv; simpa [remove_pattern_properties] using hv
termination_by v => sizeOf v
decreasing_by
  · have := sizeOf_eraseKey_le "pattern" fs
    simp at this ⊢
    omega
  · simp <;> omega

theorem remove_pattern_fields_no_key (key : String) :
    ∀ fs : List (String × Json), containsKeyFields key fs = false →
    containsKeyFields key (remove_pattern_properties_fields fs) = false
  | [] => by intro _; simp [remove_pattern_properties_fields, containsKeyFields]
  | (k, v) :: tl => by
      intro h
      simp [containsKeyFields] at h
      obtain ⟨⟨h1, h2⟩, h3⟩ := h
      simp [remove_pattern_properties_fields, containsKeyFields, h1,
        remove_pattern_no_key key v h2, remove_pattern_fields_no_key key tl h3]
termination_by fs => sizeOf fs
decreasing_by
  · simp <;> omega
  · simp <;> omega

theorem remove_pattern_list_no_key (key : String) : ∀ xs : List Json,
    containsKeyList key xs = false →
    containsKeyList key (remove_pattern_properties_list xs) = false
  | [] => by intro _; simp [remove_pattern_properties_list, containsKeyList]
  | v :: tl => by
      intro h
      simp [containsKeyList] at h
      obtain ⟨h1, h2⟩ := h
      simp [remove_pattern_properties_list, containsKeyList,
        remove_pattern_no_key key v h1, remove_pattern_list_no_key key tl h2]
termination_by xs => sizeOf xs
decreasing_by
  · simp <;> omega
  · simp <;> omega

end

mutual

theorem remove_pattern_gone : ∀ v : Json,
    containsKey "pattern" (remove_pattern_properties v) = false
  | .obj fs => by
      simp only [remove_pattern_properties, containsKey]
      exact remove_pattern_fields_gone (eraseKey "pattern" fs)
        (not_pattern_key_eraseKey "pattern" fs)
  | .arr xs => by
      simp only [remove_pattern_properties, containsKey]
      exact remove_pattern_list_gone xs
  | .null => by simp [remove_pattern_properties, containsKey]
  | .bool b => by simp [remove_pattern_properties, containsKey]
  | .num n => by simp [remove_pattern_properties, containsKey]
  | .str s => by simp [remove_pattern_properties, containsKey]
termination_by v => sizeOf v
decreasing_by
  · have := sizeOf_eraseKey_le "pattern" fs
    simp at this ⊢
    omega
  · simp <;> omega

theorem remove_pattern_fields_gone :
    ∀ fs : List (String × Json), (∀ p ∈ fs, p.1 ≠ "pattern") →
    containsKeyFields "pattern" (remove_pattern_properties_fields fs) = false
  | [] => by intro _; simp [remove_pattern_properties_fields, containsKeyFields]
  | (k, v) :: tl => by
      intro h
      have hk : k ≠ "pattern" := h (k, v) (by simp)
      simp [remove_pattern_properties_fields, containsKeyFields, hk,
        remove_pattern_gone v,
        remove_pattern_fields_gone tl (fun p hp => h p (by simp [hp]))]
termination_by fs => sizeOf fs
decreasing_by
  · simp <;> omega
  · simp <;> omega

theorem remove_pattern_list_gone : ∀ xs : List Json,
    containsKeyList "pattern" (remove_pattern_properties_list xs) = false
  | [] => by simp [remove_pattern_properties_list, containsKeyList]
  | v :: tl => by
      simp [remove_pattern_properties_list, containsKeyList,
        remove_pattern_gone v, remove_pattern_list_gone tl]
termination_by xs => sizeOf xs
decreasing_by
  · simp <;> omega
  · simp <;> omega

end

theorem parse_json_schema_no_key (schema out : Json)
    (h : parse_json_schema schema = some out) :
    containsKey "title" out = false ∧ containsKey "pattern" out = false := by
  rcases hall : remove_allOf (remove_key_recursive "title" schema) with _ | s2
  · simp only [parse_json_schema, bind, Option.bind, hall] at h
    exact absurd h (by simp)
  · simp only [parse_json_schema, bind, Option.bind, hall] at h
    rcases hany : remove_anyOf s2 with _ | s3
    · simp only [hany] at h
      exact absurd h (by simp)
    · simp only [hany] at h
      have ht1 : containsKey "title" (remove_key_recursive "title" schema) = false :=
        containsKey_remove_key_recursive "title" schema
      have ht2 : containsKey "title" s2 = false :=
        remove_allOf_no_key "title" _ s2 ht1 hall
      have ht3 : containsKey "title" s3 = false :=
        remove_anyOf_no_key "title" s2 s3 ht2 hany
      have ht4 : containsKey "title" (remove_pattern_properties s3) = false :=
        remove_pattern_no_key "title" s3 ht3
      have hp4 : containsKey "pattern" (remove_pattern_properties s3) = false :=
        remove_pattern_gone s3
      rcases hshape : remove_pattern_properties s3 with _ | b | n | s | xs | fs <;>
        simp only [hshape, pure, reduceCtorEq, Option.some.injEq] at h
      subst h
      rw [hshape] at ht4 hp4
      simp [containsKey] at ht4 hp4 ⊢
      exact ⟨containsKeyFields_eraseKey "title" "$defs" fs ht4,
        containsKeyFields_eraseKey "pattern" "$defs" fs hp4⟩

/-- A transcription value used as the opaque prompt input of concrete checks. -/
def transcription_ex : TranscriptionModel := { comments := [] }

/-- An agenda item whose goals list is empty. -/
def item_empty_goals : AgendaItemModel :=
  { agenda := "日程調整", minutes := none, status := MeetingStatus.NOT_STARTED,
    goals := [] }

/-- Input item of the round-trip check: fixed `agenda` and goal `condition`. -/
def item_update_input : AgendaItemModel :=
  { agenda := "予算の確認", minutes := none, status := MeetingStatus.NOT_STARTED,
    goals := [{ done := false, condition := "予算の上限を決める", result := none }] }

/-- A model response that rewrote the `agenda` and `condition` fields. -/
def item_update_response : AgendaItemModel :=
  { agenda := "勝手に書き換えた議題", minutes := some "議事録",
    status := MeetingStatus.COMPLETED,
    goals := [{ done := true, condition := "書き換えられた条件",
                result := some "結果" }] }

/-- C1: `AgendaItemModel.resolve_status` resolves by the three-way rule over
the goals: `COMPLETED` iff every goal is done (vacuously satisfied by an empty
goals list), `IN_PROGRESS` iff at least one but not all goals are done, and
`NOT_STARTED` iff the goals list is non-empty and no goal is done. -/
theorem resolve_status_three_way_rule (item : AgendaItemModel) :
    ((item.resolve_status).status = MeetingStatus.COMPLETED ↔
      ∀ goal ∈ item.goals, goal.done = true) ∧
    ((item.resolve_status).status = MeetingStatus.IN_PROGRESS ↔
      ((∃ goal ∈ item.goals, goal.done = true) ∧
        ¬ ∀ goal ∈ item.goals, goal.done = true)) ∧
    ((item.resolve_status).status = MeetingStatus.NOT_STARTED ↔
      (item.goals ≠ [] ∧ ∀ goal ∈ item.goals, goal.done = false)) := by
  unfold AgendaItemModel.resolve_status
  by_cases hall : item.goals.all (fun goal => goal.done)
  · rw [if_pos hall]
    rw [List.all_eq_true] at hall
    refine ⟨⟨fun _ => hall, fun _ => rfl⟩, ?_, ?_⟩
    · constructor
      · intro h
        simp at h
      · rintro ⟨hex, hnall⟩
        exact absurd hall hnall
    · constructor
      · intro h
        simp at h
      · rintro ⟨hne, hforall⟩
        obtain ⟨g, hg⟩ := List.exists_mem_of_ne_nil item.goals hne
        have h1 := hall g hg
        have h2 := hforall g hg
        rw [h1] at h2
        cases h2
  · rw [if_neg hall]
    by_cases hany : item.goals.any (fun goal => goal.done)
    · rw [if_pos hany]
      rw [List.all_eq_true] at hall
      rw [List.any_eq_true] at hany
      refine ⟨?_, ⟨fun _ => ⟨hany, hall⟩, fun _ => rfl⟩, ?_⟩
      · constructor
        · intro h
          simp at h
        · intro hAll
          exact absurd hAll hall
      · constructor
        · intro h
          simp at h
        · rintro ⟨hne, hforall⟩
          obtain ⟨g, hg, hgd⟩ := hany
          have := hforall g hg
          simp_all
    · rw [if_neg hany]
      rw [List.all_eq_true] at hall
      rw [List.any_eq_true] at hany
      push_neg at hany
      have hforall : ∀ goal ∈ item.goals, goal.done = false := by
        intro g hg
        have := hany g hg
        simpa using this
      have hne : item.goals ≠ [] := by
        intro hnil
        apply hall
        intro g hg
        rw [hnil] at hg
        simp at hg
      refine ⟨?_, ?_, ⟨fun _ => ⟨hne, hforall⟩, fun _ => rfl⟩⟩
      · constructor
        · intro h
          simp at h
        · intro hAll
          exact absurd hAll hall
      · constructor
        · intro h
          simp at h
        · rintro ⟨⟨g, hg, hgd⟩, _⟩
          have := hforall g hg
          simp_all

/-- C1 counterexample to the claim as stated: an item whose goals list is
empty resolves to `COMPLETED` (Python `all([])` is `True`), not
`NOT_STARTED`. -/
theorem resolve_status_empty_goals_counterexample :
    (item_empty_goals.resolve_status).status = MeetingStatus.COMPLETED ∧
    (item_empty_goals.resolve_status).status ≠ MeetingStatus.NOT_STARTED := by
  constructor <;> decide

/-- C2: against an adapter that fails on every attempt, `_validate` starting
at attempt 0 with bound `n` makes exactly `n + 1` generation attempts, sleeps
`2^0, 2^1, …, 2^(n-1)` seconds between consecutive attempts (so no sleep
follows the final failing attempt), and propagates the failure. -/
theorem validate_retry_bound {T : Type} (gen : Nat → Option T) (n : Nat)
    (hfail : ∀ k, gen k = none) :
    (_validate gen 0 n).attempts = n + 1 ∧
    (_validate gen 0 n).sleeps = (List.range n).map (fun k => 2 ^ k) ∧
    (_validate gen 0 n).result = none := by
  have h := validate_always_fails gen hfail 0 n
  refine ⟨by simpa using h.2.1, ?_, h.1⟩
  rw [h.2.2, List.range_eq_range']
  simp

/-- C2 witness at a concrete always-failing adapter and `n = 2`. -/
theorem validate_retry_bound_witness :
    (_validate (fun _ => (none : Option Unit)) 0 2).attempts = 2 + 1 ∧
    (_validate (fun _ => (none : Option Unit)) 0 2).sleeps =
      (List.range 2).map (fun k => 2 ^ k) ∧
    (_validate (fun _ => (none : Option Unit)) 0 2).result = none :=
  validate_retry_bound (fun _ => none) 2 (fun _ => rfl)

/-- C4 amended: with the default `max_retries = 5` and sleep base 2, the
worst-case cumulative backoff before giving up is 31 seconds — the sleeps are
`1, 2, 4, 8, 16` after attempts 0..4; attempt 5's failure is fatal, so there
is no `32`-second sleep. -/
theorem default_backoff_total {T : Type} (gen : Nat → Option T)
    (hfail : ∀ k, gen k = none) :
    (_validate gen 0 GeminiConfig.MAX_RETRIES).sleeps = [1, 2, 4, 8, 16] ∧
    (_validate gen 0 GeminiConfig.MAX_RETRIES).sleeps.sum = 31 := by
  have h := validate_always_fails gen hfail 0 GeminiConfig.MAX_RETRIES
  have hs : (_validate gen 0 GeminiConfig.MAX_RETRIES).sleeps = [1, 2, 4, 8, 16] := by
    rw [h.2.2]
    decide
  exact ⟨hs, by rw [hs]; rfl⟩

/-- C4 witness at a concrete always-failing adapter. -/
theorem default_backoff_total_witness :
    (_validate (fun _ => (none : Option Unit)) 0 GeminiConfig.MAX_RETRIES).sleeps =
      [1, 2, 4, 8, 16] ∧
    (_validate (fun _ => (none : Option Unit)) 0 GeminiConfig.MAX_RETRIES).sleeps.sum = 31 :=
  default_backoff_total (fun _ => none) (fun _ => rfl)

/-- C4 counterexample to the claim as stated: the cumulative backoff with the
default bound is 31 seconds, not ~63 — there is no sixth sleep of 32 seconds
after the fatal fifth retry. -/
theorem default_backoff_not_63 :
    (_validate (fun _ => (none : Option Unit)) 0 GeminiConfig.MAX_RETRIES).sleeps.sum = 31 ∧
    (31 : Nat) ≠ 63 := by
  have h := validate_always_fails (fun _ => (none : Option Unit)) (fun _ => rfl) 0
    GeminiConfig.MAX_RETRIES
  constructor
  · rw [h.2.2]
    decide
  · decide

/-- C7: comment-text cleanup is idempotent — applying it twice to any
Transcription yields the same value as applying it once — and it removes
every space character inside each comment's text, not just leading and
trailing ones: no space survives cleanup, and
`"今日は SDGs について"` becomes `"今日はSDGsについて"`. -/
theorem clean_text_idempotent_and_total :
    (∀ t : TranscriptionModel, t.clean_text.clean_text = t.clean_text) ∧
    (∀ c : CommentsModel, ' ' ∉ (c.clean_text).text.data) ∧
    (CommentsModel.mk 0.0 5.0 "男性1" "今日は SDGs について").clean_text.text =
      "今日はSDGsについて" := by
  refine ⟨?_, ?_, by decide⟩
  · intro t
    simp only [TranscriptionModel.clean_text]
    congr 1
    rw [List.map_map]
    exact List.map_congr_left (fun c _ => comment_clean_text_idem c)
  · intro c
    simp [CommentsModel.clean_text]

/-- C9: `AgendaModel.resolve_status` always returns an agenda whose
`hand_over` is `None` — the input's hand-over note is discarded
unconditionally, even when non-null — and the `/agenda` flow then overwrites
the field with the freshly synthesized note before returning. -/
theorem resolve_status_discards_hand_over :
    (∀ (items : List AgendaItemModel) (note : Option String),
      (AgendaModel.mk items note).resolve_status.hand_over = none) ∧
    (∀ (gen_by_item : AgendaItemModel → Nat → Option AgendaItemModel)
        (gen_hand_over : Nat → Option HandOverModel)
        (t : TranscriptionModel) (ag out : AgendaModel),
      agenda_endpoint gen_by_item gen_hand_over t ag = some out →
      ∃ note, out.hand_over = some note) := by
  constructor
  · intro items note
    rfl
  · intro gbi gho t ag out h
    simp only [agenda_endpoint, bind, Option.bind] at h
    rcases hg : gather (ag.items.map fun item =>
        process_agenda_by_item (gbi item) t item) with _ | items
    · simp only [hg] at h
      exact absurd h (by simp)
    · simp only [hg] at h
      rcases hho : process_hand_over gho t ag
          ((AgendaModel.mk items none).resolve_status) with _ | honote
      · simp only [hho] at h
        exact absurd h (by simp)
      · simp only [hho, pure, Option.some.injEq] at h
        exact ⟨honote.hand_over, by rw [← h]⟩

/-- C9 witness: a concrete run of the `/agenda` flow that succeeds and whose
result carries the synthesized note. -/
theorem resolve_status_discards_hand_over_witness :
    ∃ note, (AgendaModel.mk [] (some "引き継ぎ")).hand_over = some note :=
  resolve_status_discards_hand_over.2 (fun item _ => some item)
    (fun _ => some ⟨"引き継ぎ"⟩) transcription_ex (AgendaModel.mk [] none)
    (AgendaModel.mk [] (some "引き継ぎ"))
    (by
      simp only [agenda_endpoint, gather, process_hand_over, bind, Option.bind]
      rw [_validate.eq_def]
      simp [AgendaModel.resolve_status])

/-- C10: `clean_text` preserves the number and order of comments, and in each
comment leaves `start_sec`, `end_sec` and `speaker_id` unchanged; only the
`text` field is modified. -/
theorem clean_text_frame (t : TranscriptionModel) :
    t.clean_text.comments.length = t.comments.length ∧
    ∀ i : Nat,
      t.clean_text.comments[i]?.map (fun c => c.start_sec) =
        t.comments[i]?.map (fun c => c.start_sec) ∧
      t.clean_text.comments[i]?.map (fun c => c.end_sec) =
        t.comments[i]?.map (fun c => c.end_sec) ∧
      t.clean_text.comments[i]?.map (fun c => c.speaker_id) =
        t.comments[i]?.map (fun c => c.speaker_id) := by
  refine ⟨by simp [TranscriptionModel.clean_text], ?_⟩
  intro i
  simp only [TranscriptionModel.clean_text, List.getElem?_map]
  refine ⟨?_, ?_, ?_⟩ <;> cases t.comments[i]? <;> rfl

/-- C3 amended: both update flows return the model's validated response
verbatim — the output is some value the generation oracle produced, and no
code compares the response's `agenda` or `condition` fields against the
input.  Consequently those fields round-trip exactly when every response the
oracle can produce preserves them (as the prompt instructs), but not for
arbitrary model output. -/
theorem update_round_trip_conditional :
    (∀ (gen : Nat → Option AgendaItemModel) (t : TranscriptionModel)
        (item v : AgendaItemModel),
      process_agenda_by_item gen t item = some v → ∃ k, gen k = some v) ∧
    (∀ (gen : Nat → Option AgendaItemModel) (t : TranscriptionModel)
        (item v : AgendaItemModel),
      (∀ k w, gen k = some w → w.agenda = item.agenda ∧
        w.goals.map (fun goal => goal.condition) =
          item.goals.map (fun goal => goal.condition)) →
      process_agenda_by_item gen t item = some v →
      v.agenda = item.agenda ∧
      v.goals.map (fun goal => goal.condition) =
        item.goals.map (fun goal => goal.condition)) ∧
    (∀ (gen : Nat → Option AgendaModel) (t : TranscriptionModel)
        (ag v : AgendaModel),
      (∀ k w, gen k = some w →
        w.items.map (fun it => it.agenda) = ag.items.map (fun it => it.agenda) ∧
        w.items.map (fun it => it.goals.map (fun goal => goal.condition)) =
          ag.items.map (fun it => it.goals.map (fun goal => goal.condition))) →
      process_agenda gen t ag = some v →
      v.items.map (fun it => it.agenda) = ag.items.map (fun it => it.agenda) ∧
      v.items.map (fun it => it.goals.map (fun goal => goal.condition)) =
        ag.items.map (fun it => it.goals.map (fun goal => goal.condition))) := by
  refine ⟨?_, ?_, ?_⟩
  · intro gen t item v h
    exact validate_result_some gen 0 GeminiConfig.MAX_RETRIES v h
  · intro gen t item v hgen h
    obtain ⟨k, hk⟩ := validate_result_some gen 0 GeminiConfig.MAX_RETRIES v h
    exact hgen k v hk
  · intro gen t ag v hgen h
    obtain ⟨k, hk⟩ := validate_result_some gen 0 GeminiConfig.MAX_RETRIES v h
    exact hgen k v hk

/-- C3 counterexample to the claim as stated: an oracle whose response
rewrites `agenda` and the goal `condition` makes `process_agenda_by_item`
return that rewritten value unchanged — nothing restores the input fields. -/
theorem update_round_trip_counterexample :
    process_agenda_by_item (fun _ => some item_update_response) transcription_ex
      item_update_input = some item_update_response ∧
    item_update_response.agenda ≠ item_update_input.agenda ∧
    item_update_response.goals.map (fun goal => goal.condition) ≠
      item_update_input.goals.map (fun goal => goal.condition) := by
  refine ⟨?_, by decide, by decide⟩
  simp only [process_agenda_by_item]
  rw [_validate.eq_def]

/-- C3 witness: with an oracle that echoes the input item, the fields
round-trip. -/
theorem update_round_trip_witness :
    item_update_input.agenda = item_update_input.agenda ∧
    item_update_input.goals.map (fun goal => goal.condition) =
      item_update_input.goals.map (fun goal => goal.condition) :=
  update_round_trip_conditional.2.1 (fun _ => some item_update_input)
    transcription_ex item_update_input item_update_input
    (fun k w hw => by
      simp only [Option.some.injEq] at hw
      subst hw
      exact ⟨rfl, rfl⟩)
    (by
      simp only [process_agenda_by_item]
      rw [_validate.eq_def])

/-- Agenda item "A" of the fail-fast check. -/
def item_A : AgendaItemModel :=
  { agenda := "A", minutes := none, status := MeetingStatus.NOT_STARTED,
    goals := [] }

/-- Agenda item "B" of the fail-fast check (its update will fail). -/
def item_B : AgendaItemModel :=
  { agenda := "B", minutes := none, status := MeetingStatus.NOT_STARTED,
    goals := [] }

/-- Agenda item "C" of the fail-fast check. -/
def item_C : AgendaItemModel :=
  { agenda := "C", minutes := none, status := MeetingStatus.NOT_STARTED,
    goals := [] }

/-- The three-item agenda [A, B, C]. -/
def ag_ABC : AgendaModel :=
  { items := [item_A, item_B, item_C], hand_over := none }

/-- A per-item oracle that fails on every attempt for item "B" and echoes
every other item on the first attempt. -/
def gen_fail_B (item : AgendaItemModel) : Nat → Option AgendaItemModel :=
  fun _ => if item.agenda = "B" then none else some item

/-- An item update used by the order-preservation check. -/
def update_item_ex (item : AgendaItemModel) : AgendaItemModel :=
  { item with minutes := some "更新済み" }

/-- C6: if the update of any single agenda item fails after exhausting its
retries, the whole `/agenda` interval update fails and no Agenda value — in
particular no partially updated one — is returned to the caller. -/
theorem interval_update_fail_fast
    (gen_by_item : AgendaItemModel → Nat → Option AgendaItemModel)
    (gen_hand_over : Nat → Option HandOverModel)
    (t : TranscriptionModel) (ag : AgendaModel)
    (hfail : ∃ item ∈ ag.items,
      process_agenda_by_item (gen_by_item item) t item = none) :
    agenda_endpoint gen_by_item gen_hand_over t ag = none := by
  obtain ⟨item, hmem, hnone⟩ := hfail
  have hmemnone : none ∈ ag.items.map
      (fun it => process_agenda_by_item (gen_by_item it) t it) :=
    List.mem_map.mpr ⟨item, hmem, hnone⟩
  simp only [agenda_endpoint, bind, Option.bind]
  rw [gather_none _ hmemnone]

/-- C6 witness: item B's oracle fails on every attempt while A and C succeed,
and the whole interval update returns no agenda. -/
theorem interval_update_fail_fast_witness :
    agenda_endpoint gen_fail_B (fun _ => some ⟨"h"⟩) transcription_ex ag_ABC = none :=
  interval_update_fail_fast gen_fail_B (fun _ => some ⟨"h"⟩) transcription_ex ag_ABC
    ⟨item_B, by decide,
      (validate_always_fails (gen_fail_B item_B)
        (fun _ => by simp [gen_fail_B, item_B]) 0 GeminiConfig.MAX_RETRIES).1⟩

/-- C8: the merged result of the per-item fan-out has exactly one output item
per input item, in the original input order — output `i` is the item-update
of input `i` — for every completion order of the concurrent tasks. -/
theorem parallel_update_preserves_order
    (update_item : AgendaItemModel → AgendaItemModel) (ag : AgendaModel)
    (dflt : AgendaItemModel) (completion_order : List Nat)
    (hperm : completion_order.Perm (List.range ag.items.length)) :
    gather_by_completion (fun i => update_item (ag.items.getD i dflt))
      ag.items.length completion_order = some (ag.items.map update_item) := by
  simp only [gather_by_completion]
  rw [collectInOrder_some
      (completion_order.map (fun j => (j, update_item (ag.items.getD j dflt))))
      (fun i => update_item (ag.items.getD i dflt)) (List.range ag.items.length)
      (fun i hi => lookupIdx_log (fun j => update_item (ag.items.getD j dflt)) i
        completion_order ((List.Perm.mem_iff hperm).mpr hi))]
  rw [map_getD_range]

/-- C8 witness: for [A, B, C] with completion order B, A, C the merged result
is still [A', B', C']. -/
theorem parallel_update_preserves_order_witness :
    gather_by_completion (fun i => update_item_ex (ag_ABC.items.getD i item_A))
      ag_ABC.items.length [1, 0, 2] = some (ag_ABC.items.map update_item_ex) :=
  parallel_update_preserves_order update_item_ex ag_ABC item_A [1, 0, 2] (by decide)

/-- A pydantic-style optional-string field schema: the field is a union of
string and null, with a default and a title, inside an object schema. -/
def schema_optional_string : Json :=
  Json.obj [
    ("properties", Json.obj [
      ("minutes", Json.obj [
        ("anyOf", Json.arr [Json.obj [("type", Json.str "string")],
                            Json.obj [("type", Json.str "null")]]),
        ("default", Json.null),
        ("title", Json.str "Minutes")])]),
    ("required", Json.arr []),
    ("title", Json.str "AgendaItemModel"),
    ("type", Json.str "object")]

/-- The export of `schema_optional_string`: titles gone, the union collapsed
to its first (string) alternative with the null branch dropped. -/
def schema_optional_string_out : Json :=
  Json.obj [
    ("properties", Json.obj [
      ("minutes", Json.obj [("default", Json.null),
                            ("type", Json.str "string")])]),
    ("required", Json.arr []),
    ("type", Json.str "object")]

/-- A schema whose `anyOf` has a first alternative that itself carries an
`anyOf` key. -/
def schema_nested_anyOf : Json :=
  Json.obj [("anyOf", Json.arr [
    Json.obj [("anyOf", Json.arr [Json.obj [("type", Json.str "string")]])]])]

/-- What `parse_json_schema` returns for `schema_nested_anyOf`: the merged-in
first alternative still carries an `anyOf` key, which survives because the
node is not re-examined after the merge. -/
def schema_nested_anyOf_out : Json :=
  Json.obj [("anyOf", Json.arr [Json.obj [("type", Json.str "string")]])]

/-- Reassembly of `parse_json_schema` from the results of its stages, used to
evaluate it on concrete schemas without one monolithic proof term. -/
theorem parse_json_schema_steps (schema s2 s3 : Json) (fs4 : List (String × Json))
    (h2 : remove_allOf (remove_key_recursive "title" schema) = some s2)
    (h3 : remove_anyOf s2 = some s3)
    (h4 : remove_pattern_properties s3 = Json.obj fs4) :
    parse_json_schema schema = some (Json.obj (eraseKey "$defs" fs4)) := by
  simp only [parse_json_schema, h2, bind, Option.bind, h3, h4, pure]

/-- `schema_optional_string` after the `title`-removal stage. -/
def schema_optional_string_detitled : Json :=
  Json.obj [
    ("properties", Json.obj [
      ("minutes", Json.obj [
        ("anyOf", Json.arr [Json.obj [("type", Json.str "string")],
                            Json.obj [("type", Json.str "null")]]),
        ("default", Json.null)])]),
    ("required", Json.arr []),
    ("type", Json.str "object")]

/-- C5 amended: `parse_json_schema` leaves no `title` or `pattern` key
anywhere in a successful output, and replaces each `anyOf` by merging in its
first listed alternative — in particular an optional-string field (union of
string and null) exports as a plain string-typed entry with the null branch
dropped.  (An `anyOf` key can survive when a union's first alternative itself
contains a top-level `anyOf`, since the merged node is not re-examined.) -/
theorem schema_export_strips_keys :
    (∀ (schema out : Json), parse_json_schema schema = some out →
      containsKey "title" out = false ∧ containsKey "pattern" out = false) ∧
    parse_json_schema schema_optional_string = some schema_optional_string_out := by
  refine ⟨parse_json_schema_no_key, ?_⟩
  have h2 : remove_allOf (remove_key_recursive "title" schema_optional_string) =
      some schema_optional_string_detitled := by
    have h1 : remove_key_recursive "title" schema_optional_string =
        schema_optional_string_detitled := rfl
    rw [h1]
    simp [remove_allOf, remove_allOf_fields, remove_allOf_list,
      schema_optional_string_detitled, lookupKey]
  have h3 : remove_anyOf schema_optional_string_detitled =
      some schema_optional_string_out := by
    simp [remove_anyOf, remove_anyOf_fields, remove_anyOf_list,
      schema_optional_string_detitled, schema_optional_string_out, lookupKey,
      eraseKey, setKey, dictUpdate]
  have h4 : remove_pattern_properties schema_optional_string_out =
      Json.obj [
        ("properties", Json.obj [
          ("minutes", Json.obj [("default", Json.null),
                                ("type", Json.str "string")])]),
        ("required", Json.arr []),
        ("type", Json.str "object")] := by
    simp [remove_pattern_properties, remove_pattern_properties_fields,
      remove_pattern_properties_list, schema_optional_string_out, eraseKey]
  have hsteps := parse_json_schema_steps schema_optional_string
    schema_optional_string_detitled schema_optional_string_out _ h2 h3 h4
  rw [hsteps]
  rfl

/-- C5 witness: the optional-string export contains no `title` and no
`pattern` key. -/
theorem schema_export_strips_keys_witness :
    containsKey "title" schema_optional_string_out = false ∧
    containsKey "pattern" schema_optional_string_out = false :=
  schema_export_strips_keys.1 schema_optional_string schema_optional_string_out
    schema_export_strips_keys.2

/-- C5 counterexample to the claim as stated: a nested union's first
alternative carries its own `anyOf`, and that key remains in the output, so
`parse_json_schema` does not remove every `anyOf` key from every input. -/
theorem schema_export_anyOf_counterexample :
    parse_json_schema schema_nested_anyOf = some schema_nested_anyOf_out ∧
    containsKey "anyOf" schema_nested_anyOf_out = true := by
  constructor
  · have h2 : remove_allOf (remove_key_recursive "title" schema_nested_anyOf) =
        some schema_nested_anyOf := by
      have h1 : remove_key_recursive "title" schema_nested_anyOf =
          schema_nested_anyOf := rfl
      rw [h1]
      simp [remove_allOf, remove_allOf_fields, remove_allOf_list,
        schema_nested_anyOf, lookupKey]
    have h3 : remove_anyOf schema_nested_anyOf = some schema_nested_anyOf_out := by
      simp [remove_anyOf, remove_anyOf_fields, remove_anyOf_list,
        schema_nested_anyOf, schema_nested_anyOf_out, lookupKey, eraseKey,
        setKey, dictUpdate]
    have h4 : remove_pattern_properties schema_nested_anyOf_out =
        Json.obj [("anyOf", Json.arr [Json.obj [("type", Json.str "string")]])] := by
      simp [remove_pattern_properties, remove_pattern_properties_fields,
        remove_pattern_properties_list, schema_nested_anyOf_out, eraseKey]
    have hsteps := parse_json_schema_steps schema_nested_anyOf
      schema_nested_anyOf schema_nested_anyOf_out _ h2 h3 h4
    rw [hsteps]
    rfl
  · decide
